import Mathlib

/-
Verification of the ping-indicator applet supervisor (applet.js).

The development embeds, as executable Lean definitions:
  * the line parser: the regular expression applied to each ping output
    line (applet.js line 60);
  * the label renderer set_ping_val (applet.js lines 112-116);
  * the finalization block of the async generator ping, including the
    graceful-then-forced shutdown escalation built on
    wait_proc_with_timeout (applet.js lines 21-33 and 64-91);
  * the request-queue semantics of the async generator ping together with
    the consumption loop (applet.js lines 42-92 and 118-127), as a small
    step machine over external events;
  * the controller state of PingIndicatorApplet: the constructor and the
    atomic (synchronous, up to the first await) parts of the idempotent
    start and stop operations (applet.js lines 96-157).
-/

set_option autoImplicit false

/-! ## Line parser: regex time=(digits.digits) ws* ms with word boundaries -/

/-- Word characters of the regex escape for word boundaries: letters, digits
and the underscore. -/
def isWordChar (c : Char) : Bool := c.isAlphanum || c == '_'

/-- Whitespace characters recognized by the regex whitespace escape in
ECMAScript: tab, line feed, vertical tab, form feed, carriage return,
space, and the Unicode whitespace code points: no-break space, ogham
space mark, the en quad through hair space range, line separator,
paragraph separator, narrow no-break space, medium mathematical space,
ideographic space, and zero width no-break space. -/
def wsChars : List Char :=
  [' ', '\t', '\n', '\x0b', '\x0c', '\r',
   '\u00A0', '\u1680', '\u2000', '\u2001', '\u2002', '\u2003',
   '\u2004', '\u2005', '\u2006', '\u2007', '\u2008', '\u2009',
   '\u200A', '\u2028', '\u2029', '\u202F', '\u205F', '\u3000',
   '\uFEFF']

/-- Membership test for the whitespace class of the regex whitespace
escape. -/
def wsChar (c : Char) : Bool := wsChars.contains c

/-- The literal prefix of the token: the characters of time= . -/
def litTimeEq : List Char := ['t', 'i', 'm', 'e', '=']

/-- The literal tail of the token: the characters of ms. -/
def mChars : List Char := ['m', 's']

/-- A word boundary holds before the token when the preceding character is
absent (start of line) or is not a word character. -/
def boundaryBefore : Option Char → Bool
  | none => true
  | some c => !(isWordChar c)

/-- Drop an expected literal from the front of a character list; none when
the literal is not a prefix. -/
def dropLit : List Char → List Char → Option (List Char)
  | [], cs => some cs
  | _ :: _, [] => none
  | l :: ls, c :: cs => if c = l then dropLit ls cs else none

/-- Attempt the regex match anchored at the current position, given the
character immediately before that position. Mirrors the greedy matching of
time=(digits+ . digits+) ws* ms with a word boundary on each side; the
fractional part is mandatory in the source regex. Returns the first capture
group. -/
def matchAt (prev : Option Char) (cs : List Char) : Option (List Char) :=
  if boundaryBefore prev = true then
    (dropLit litTimeEq cs).bind fun r0 =>
      if r0.takeWhile Char.isDigit = [] then none
      else
        match r0.dropWhile Char.isDigit with
        | [] => none
        | c1 :: r2 =>
          if c1 = '.' then
            if r2.takeWhile Char.isDigit = [] then none
            else
              (dropLit mChars ((r2.dropWhile Char.isDigit).dropWhile wsChar)).bind
                fun r5 =>
                  match r5.head? with
                  | none =>
                      some (r0.takeWhile Char.isDigit ++
                        '.' :: r2.takeWhile Char.isDigit)
                  | some c =>
                      if isWordChar c = true then none
                      else
                        some (r0.takeWhile Char.isDigit ++
                          '.' :: r2.takeWhile Char.isDigit)
          else none
  else none

/-- Scan the line left to right, as regex exec does, returning the capture
group of the leftmost match. The first argument is the character before the
current position, used for the word-boundary test. -/
def scanLine (prev : Option Char) : List Char → Option (List Char)
  | [] => matchAt prev []
  | c :: rest =>
    match matchAt prev (c :: rest) with
    | some v => some v
    | none => scanLine (some c) rest

/-- The parser applied to one output line (applet.js line 60): the matched
number text on success, none otherwise. Total: no failure mode. -/
def parseLine (s : String) : Option String :=
  match scanLine none s.toList with
  | some v => some (String.mk v)
  | none => none

/-- Last character of a consumed prefix, falling back to the character that
preceded the whole prefix. -/
def lastOpt (prev : Option Char) (pre : List Char) : Option Char :=
  match pre.getLast? with
  | some c => some c
  | none => prev

/-- The shape of a time token inside a line: the literal time=, a nonempty
digit group, a dot, a second nonempty digit group, optional whitespace, and
the literal ms, followed by the rest of the line. -/
def tokenChunk (d1 d2 ws rest : List Char) : List Char :=
  litTimeEq ++ (d1 ++ ('.' :: (d2 ++ (ws ++ ('m' :: 's' :: rest)))))

/-- Modelled from the spec: a line s decomposes into a prefix, a time token
with decimal value d1.d2, whitespace before ms, and a remainder, with word
boundaries on both sides of the token. -/
def TokenSplit (s pre d1 d2 ws rest : List Char) : Prop :=
  s = pre ++ tokenChunk d1 d2 ws rest ∧
  d1 ≠ [] ∧ (∀ c ∈ d1, c.isDigit = true) ∧
  d2 ≠ [] ∧ (∀ c ∈ d2, c.isDigit = true) ∧
  (∀ c ∈ ws, wsChar c = true) ∧
  (∀ c, pre.getLast? = some c → isWordChar c = false) ∧
  (∀ c, rest.head? = some c → isWordChar c = false)

/-- A realistic ping output line carrying a decimal time. -/
def pingSampleLine : String := "64 bytes from 1.1.1.1: icmp_seq=1 ttl=59 time=12.3 ms"

/-- A realistic ping output line carrying an integer time (ping prints no
fraction for round-trip times of one hundred milliseconds or more). -/
def intTimeLine : String := "64 bytes from 1.1.1.1: icmp_seq=1 ttl=59 time=105 ms"

/-- A line in which the token substring is glued to a word character. -/
def gluedTimeLine : String := "xtime=12.3ms"

/-- A line whose whitespace before ms is the Unicode no-break space,
accepted by the regex whitespace escape. -/
def nbspTimeLine : String := "time=12.3\u00A0ms"

/-- The value captured from pingSampleLine. -/
def msVal : String := "12.3"

/-- A line with no time token at all. -/
def timeoutLine : String := "Request timeout for icmp_seq 4"

/-! ## Label renderer (applet.js lines 112-116) -/

/-- The renderer set_ping_val: the label handed to the rendering
collaborator. A non-empty title (truthy in the source) is followed by one
space; a resolved sample renders as the value and a ms suffix, an
unresolved one as N/A. -/
def set_ping_val (title : String) (val : Option String) : String :=
  (if title = "" then "" else title ++ " ") ++
  (match val with
   | some v => v ++ " ms"
   | none => "N/A")

/-! ## Shutdown escalation (applet.js lines 21-33 and 64-91) -/

/-- Actions performed by the finalization block of ping, in order. -/
inductive FinAction where
  | cancelRead
  | closeStream
  | waitUnbounded
  | sendSignal (sig : Nat)
  | forceExit
  | boundedWait (ms : Nat)
deriving DecidableEq

/-- POSIX SIGTERM, as defined at applet.js line 9. -/
def SIGTERM : Nat := 15

/-- Graceful-termination wait bound in milliseconds (applet.js line 11). -/
def SIGTERM_TIMEOUT : Nat := 5000

/-- Forced-termination wait bound in milliseconds (applet.js line 12). -/
def SIGKILL_TIMEOUT : Nat := 5000

/-- Model of wait_proc_with_timeout: arm a one-shot timer of the given
bound that cancels the process wait, await the race, and remove the timer
in a finally clause. The boolean argument abstracts whether the process
exits within the bound; the result is the boolean wait_async outcome
(false exactly when the cancellable fired first). -/
def wait_proc_with_timeout (timeout : Nat) (exitsWithin : Bool) :
    List FinAction × Bool :=
  ([FinAction.boundedWait timeout], exitsWithin)

/-- Abstract behavior of the spawned ping process at finalize time:
whether it has already exited on its own (its identifier is null), and
whether it would exit within each of the two wait bounds. -/
structure ProcBehavior where
  alreadyExited : Bool
  exitsWithinTerm : Bool
  exitsWithinKill : Bool
deriving DecidableEq

/-- The finally block of ping (applet.js lines 64-91): cancel the pending
read cancellable, close the output stream, then either await the exit of a
process that already exited on its own, or send SIGTERM, wait up to the
first bound, and only if that wait failed force-exit and wait up to the
second bound. The boolean result is the terminated status logged at the
end. -/
def pingFinalize (p : ProcBehavior) : List FinAction × Bool :=
  let pre := [FinAction.cancelRead, FinAction.closeStream]
  if p.alreadyExited = true then
    (pre ++ [FinAction.waitUnbounded], true)
  else
    let w1 := wait_proc_with_timeout SIGTERM_TIMEOUT p.exitsWithinTerm
    if w1.snd = true then
      (pre ++ (FinAction.sendSignal SIGTERM :: w1.fst), true)
    else
      let w2 := wait_proc_with_timeout SIGKILL_TIMEOUT p.exitsWithinKill
      (pre ++ (FinAction.sendSignal SIGTERM :: w1.fst) ++
        (FinAction.forceExit :: w2.fst), w2.snd)

/-! ## Async generator request-queue machine (applet.js lines 42-92, 118-127)

The async generator ping serves next and return requests through a queue:
a request arriving while the body is suspended at the inner await of
read_line_async is queued and does not preempt that read. The machine
below embeds this protocol. External events are: the consumption loop
requesting the next sample, stop requesting return, a line arriving on the
pipe, end of stream, and a read error. Observations record samples
forwarded to the rendering collaborator, runs of the finalization block,
and resolutions of the return request. -/

/-- A queued request on the generator. -/
inductive Req where
  | next
  | ret
deriving DecidableEq

/-- The suspension state of the generator body. created: the body has not
started (no next yet). reading: a next request is being served and the
body is suspended at the inner await of read_line_async. idle: suspended
at a yield, between requests. done: the body has completed. -/
inductive Phase where
  | created
  | reading
  | idle
  | done
deriving DecidableEq

/-- Observable effects of the machine. -/
inductive Obs where
  | deliver (v : Option String)
  | finalize
  | stopResolvedObs
deriving DecidableEq

/-- Machine state: suspension phase, queued requests not currently being
served, whether the body ever started, whether a return was requested,
and whether a return request has resolved. -/
structure GenM where
  phase : Phase
  queue : List Req
  started : Bool
  stopRequested : Bool
  stopResolved : Bool
deriving DecidableEq

/-- Serve queued requests as far as possible. A next request on a
suspended generator starts a read; a return request on a generator
suspended at a yield runs the finalization block and completes the
generator; requests on a completed generator resolve immediately; a
return request on a never-started generator completes it without running
the body (the finally clause never runs because the try was never
entered); nothing can be served while a read is in flight. -/
def drain : Phase → List Req → Bool → Bool → Bool → GenM × List Obs
  | Phase.reading, q, st, sq, sr => (⟨Phase.reading, q, st, sq, sr⟩, [])
  | Phase.created, [], st, sq, sr => (⟨Phase.created, [], st, sq, sr⟩, [])
  | Phase.created, Req.next :: rest, _, sq, sr =>
      (⟨Phase.reading, rest, true, sq, sr⟩, [])
  | Phase.created, Req.ret :: rest, st, sq, _ =>
      let r := drain Phase.done rest st sq true
      (r.fst, Obs.stopResolvedObs :: r.snd)
  | Phase.idle, [], st, sq, sr => (⟨Phase.idle, [], st, sq, sr⟩, [])
  | Phase.idle, Req.next :: rest, st, sq, sr =>
      (⟨Phase.reading, rest, st, sq, sr⟩, [])
  | Phase.idle, Req.ret :: rest, st, sq, _ =>
      let r := drain Phase.done rest st sq true
      (r.fst, Obs.finalize :: Obs.stopResolvedObs :: r.snd)
  | Phase.done, [], st, sq, sr => (⟨Phase.done, [], st, sq, sr⟩, [])
  | Phase.done, Req.next :: rest, st, sq, sr => drain Phase.done rest st sq sr
  | Phase.done, Req.ret :: rest, st, sq, _ =>
      let r := drain Phase.done rest st sq true
      (r.fst, Obs.stopResolvedObs :: r.snd)

/-- External events driving the generator and its consumption loop. -/
inductive Ev where
  | reqNext
  | reqRet
  | line (s : String)
  | eof
  | readErr
deriving DecidableEq

/-- One event step. A line arriving while a read is in flight resolves the
pending next request with the parsed sample, which the consumption loop
forwards to the rendering collaborator; the generator then suspends at the
yield and serves the queue. End of stream or a read error makes the body
leave the loop, so the finally clause runs and the generator completes.
Requests enqueue and then the queue is served. A line arriving with no
read in flight stays in the pipe buffer. -/
def pingStep (m : GenM) : Ev → GenM × List Obs
  | Ev.reqNext =>
      drain m.phase (m.queue ++ [Req.next]) m.started m.stopRequested m.stopResolved
  | Ev.reqRet =>
      drain m.phase (m.queue ++ [Req.ret]) m.started true m.stopResolved
  | Ev.line s =>
      match m.phase with
      | Phase.reading =>
          let r := drain Phase.idle m.queue m.started m.stopRequested m.stopResolved
          (r.fst, Obs.deliver (parseLine s) :: r.snd)
      | _ => (m, [])
  | Ev.eof =>
      match m.phase with
      | Phase.reading =>
          let r := drain Phase.done m.queue m.started m.stopRequested m.stopResolved
          (r.fst, Obs.finalize :: r.snd)
      | _ => (m, [])
  | Ev.readErr =>
      match m.phase with
      | Phase.reading =>
          let r := drain Phase.done m.queue m.started m.stopRequested m.stopResolved
          (r.fst, Obs.finalize :: r.snd)
      | _ => (m, [])

/-- Run the machine from a given state over a list of events. -/
def pingRunFrom (m : GenM) : List Ev → GenM × List Obs
  | [] => (m, [])
  | e :: es =>
      let r1 := pingStep m e
      let r2 := pingRunFrom r1.fst es
      (r2.fst, r1.snd ++ r2.snd)

/-- The freshly created generator: body not started, empty queue. -/
def pingInit : GenM := ⟨Phase.created, [], false, false, false⟩

/-- Run the machine from the initial state. -/
def pingRun (evs : List Ev) : GenM × List Obs := pingRunFrom pingInit evs

/-- Number of finalization runs among the observations. -/
def finCount : List Obs → Nat
  | [] => 0
  | Obs.finalize :: rest => finCount rest + 1
  | _ :: rest => finCount rest

/-- One when the machine represents a closed session (body started and
completed), zero otherwise. -/
def closedCount (m : GenM) : Nat :=
  if m.phase = Phase.done ∧ m.started = true then 1 else 0

/-- Structural wellformedness of machine states: a never-started body is
only possible in the created phase, and a body suspended in its loop has
started. -/
def GenWF (m : GenM) : Prop :=
  (m.phase = Phase.created → m.started = false) ∧
  ((m.phase = Phase.idle ∨ m.phase = Phase.reading) → m.started = true)

/-- Stop-resolution invariant: a resolved return request implies a
completed generator. -/
def stopInv (m : GenM) : Prop :=
  m.stopResolved = true → m.phase = Phase.done

/-- A short line with no time token, used to drive the machine. -/
def plainLine : String := "x"

/-! ## Controller state (applet.js lines 96-182) -/

/-- Map an optional host to the tooltip text, as the source's
null-coalescing to the empty string. -/
def hostOrEmpty : Option String → String
  | some h => h
  | none => ""

/-- Controller state of PingIndicatorApplet. Sessions and PendingStop
promises are identified by natural numbers; spawned records every session
ever created, retCalls every session on which return was invoked, and
resolved every promise id that has already resolved. -/
structure Ctl where
  is_in_panel : Bool
  ping : Option Nat
  nextSession : Nat
  spawned : List Nat
  retCalls : List Nat
  stoppedPromise : Nat
  nextPromise : Nat
  resolved : List Nat
  label : String
  tooltip : String
deriving DecidableEq

/-- The constructor (applet.js lines 96-110): not in panel, no session,
PendingStop initialized to an already-resolved promise (id zero), tooltip
set to the host or the empty string, label set through set_ping_val with
no sample. -/
def initApplet (host : Option String) (title : String) : Ctl :=
  { is_in_panel := false
    ping := none
    nextSession := 0
    spawned := []
    retCalls := []
    stoppedPromise := 0
    nextPromise := 1
    resolved := [0]
    label := set_ping_val title none
    tooltip := hostOrEmpty host }

/-- The idempotent start (applet.js lines 129-135): spawn a fresh session
only when none is active. -/
def start (s : Ctl) : Ctl :=
  match s.ping with
  | none =>
      { s with
        ping := some s.nextSession
        nextSession := s.nextSession + 1
        spawned := s.spawned ++ [s.nextSession] }
  | some _ => s

/-- The synchronous part of the idempotent stop (applet.js lines 137-157),
up to its first await: with an active session, clear the slot, invoke
return on the session (recorded in retCalls), install a fresh PendingStop
promise and await it; with no active session, await the existing
PendingStop. The returned number is the promise the call awaits. -/
def stopSync (s : Ctl) : Ctl × Nat :=
  match s.ping with
  | some k =>
      ({ s with
          ping := none
          retCalls := s.retCalls ++ [k]
          stoppedPromise := s.nextPromise
          nextPromise := s.nextPromise + 1 },
       s.nextPromise)
  | none => (s, s.stoppedPromise)

/-- Completion of a stop: the PendingStop promise resolves once the
session finalization finished. -/
def finishStop (s : Ctl) : Ctl :=
  { s with resolved := s.resolved ++ [s.stoppedPromise] }

/-- Panel attach handler (applet.js lines 159-162). -/
def on_applet_added_to_panel (s : Ctl) : Ctl :=
  start { s with is_in_panel := true }

/-- Panel detach handler (applet.js lines 164-167). -/
def on_applet_removed_from_panel (s : Ctl) : Ctl :=
  (stopSync { s with is_in_panel := false }).fst

/-- Settings-change handler (applet.js lines 169-182): update the tooltip,
and when attached to the panel, stop any running session and start a new
one. -/
def on_settings_changed (s : Ctl) (newHost : Option String) : Ctl :=
  let s1 := { s with tooltip := hostOrEmpty newHost }
  if s1.is_in_panel = true then start (stopSync s1).fst else s1

/-- Controller states reachable from a freshly constructed applet through
the modeled operations. -/
inductive Reach : Ctl → Prop where
  | rInit (host : Option String) (title : String) : Reach (initApplet host title)
  | rStart {s : Ctl} : Reach s → Reach (start s)
  | rStop {s : Ctl} : Reach s → Reach (stopSync s).fst
  | rFinish {s : Ctl} : Reach s → Reach (finishStop s)
  | rAdd {s : Ctl} : Reach s → Reach (on_applet_added_to_panel s)
  | rRemove {s : Ctl} : Reach s → Reach (on_applet_removed_from_panel s)
  | rSettings {s : Ctl} (newHost : Option String) :
      Reach s → Reach (on_settings_changed s newHost)

/-- The empty title. -/
def emptyTitle : String := ""

/-- A sample non-empty title. -/
def titleT : String := "T"

/-! ## Parser lemmas -/

theorem dropLit_sound : ∀ (lit cs r : List Char), dropLit lit cs = some r → cs = lit ++ r := by
  intro lit
  induction lit with
  | nil =>
    intro cs r h
    simp [dropLit] at h
    simp [h]
  | cons l ls ih =>
    intro cs r h
    cases cs with
    | nil => simp [dropLit] at h
    | cons c cs' =>
      by_cases hc : c = l
      · subst hc
        simp [dropLit] at h
        have := ih cs' r h
        simp [this]
      · simp [dropLit, hc] at h

theorem dropLit_complete : ∀ (lit r : List Char), dropLit lit (lit ++ r) = some r := by
  intro lit r
  induction lit with
  | nil => rfl
  | cons l ls ih => simp [dropLit, ih]

theorem tw_split (p : Char → Bool) (l1 l2 : List Char)
    (h1 : ∀ c ∈ l1, p c = true)
    (h2 : ∀ c, l2.head? = some c → p c = false) :
    (l1 ++ l2).takeWhile p = l1 ∧ (l1 ++ l2).dropWhile p = l2 := by
  induction l1 with
  | nil =>
    cases l2 with
    | nil => simp
    | cons c r =>
      simp [List.takeWhile_cons, List.dropWhile_cons, h2 c rfl]
  | cons a l ih =>
    have ha : p a = true := h1 a (List.mem_cons_self a l)
    have ih' := ih fun c hc => h1 c (List.mem_cons_of_mem a hc)
    simp [List.takeWhile_cons, List.dropWhile_cons, ha, ih'.1, ih'.2]

theorem wsChar_not_digit (c : Char) (h : wsChar c = true) : c.isDigit = false := by
  have hm : c ∈ wsChars := by simpa [wsChar] using h
  fin_cases hm <;> decide

theorem chunk_recompose (r0 d1 r2 d2 r3 ws r5 : List Char)
    (h0 : d1 ++ ('.' :: r2) = r0)
    (h2 : d2 ++ r3 = r2)
    (h3 : ws ++ ('m' :: 's' :: r5) = r3) :
    litTimeEq ++ r0 = tokenChunk d1 d2 ws r5 := by
  subst h0
  subst h2
  subst h3
  rfl

theorem matchAt_sound (prev : Option Char) (cs v : List Char)
    (h : matchAt prev cs = some v) :
    boundaryBefore prev = true ∧
    ∃ d1 d2 ws rest,
      cs = tokenChunk d1 d2 ws rest ∧
      d1 ≠ [] ∧ (∀ c ∈ d1, c.isDigit = true) ∧
      d2 ≠ [] ∧ (∀ c ∈ d2, c.isDigit = true) ∧
      (∀ c ∈ ws, wsChar c = true) ∧
      (∀ c, rest.head? = some c → isWordChar c = false) ∧
      v = d1 ++ '.' :: d2 := by
  unfold matchAt at h
  split at h
  case isFalse => exact absurd h (by simp)
  case isTrue hb =>
  refine ⟨hb, ?_⟩
  rw [Option.bind_eq_some] at h
  obtain ⟨r0, hr0, h⟩ := h
  split at h
  case isTrue => exact absurd h (by simp)
  case isFalse h1 =>
  split at h
  case h_1 => exact absurd h (by simp)
  case h_2 c1 r2 heq =>
  split at h
  case isFalse => exact absurd h (by simp)
  case isTrue hdot =>
  split at h
  case isTrue => exact absurd h (by simp)
  case isFalse h2 =>
  rw [Option.bind_eq_some] at h
  obtain ⟨r5, hr5, h⟩ := h
  subst hdot
  have hcs : cs = litTimeEq ++ r0 := dropLit_sound _ _ _ hr0
  have hr4 : (r2.dropWhile Char.isDigit).dropWhile wsChar = mChars ++ r5 :=
    dropLit_sound _ _ _ hr5
  have hvrest : v = r0.takeWhile Char.isDigit ++ '.' :: r2.takeWhile Char.isDigit ∧
      (∀ c, r5.head? = some c → isWordChar c = false) := by
    split at h
    next hh =>
      refine ⟨(Option.some.inj h).symm, fun c hc => ?_⟩
      rw [hh] at hc
      exact Option.noConfusion hc
    next c hh =>
      split at h
      next => exact absurd h (by simp)
      next hw =>
        refine ⟨(Option.some.inj h).symm, fun c' hc' => ?_⟩
        rw [hh] at hc'
        cases Option.some.inj hc'
        simpa using hw
  obtain ⟨hv, hrest⟩ := hvrest
  refine ⟨r0.takeWhile Char.isDigit, r2.takeWhile Char.isDigit,
      (r2.dropWhile Char.isDigit).takeWhile wsChar, r5,
      ?_, h1, ?_, h2, ?_, ?_, hrest, hv⟩
  · rw [hcs]
    refine chunk_recompose r0 _ r2 _ (r2.dropWhile Char.isDigit) _ r5 ?_ ?_ ?_
    · have e := List.takeWhile_append_dropWhile Char.isDigit r0
      rw [heq] at e
      exact e
    · exact List.takeWhile_append_dropWhile Char.isDigit r2
    · have e := List.takeWhile_append_dropWhile wsChar (r2.dropWhile Char.isDigit)
      rw [hr4] at e
      simpa [mChars] using e
  · intro c hc
    exact List.mem_takeWhile_imp hc
  · intro c hc
    exact List.mem_takeWhile_imp hc
  · intro c hc
    exact List.mem_takeWhile_imp hc

theorem matchAt_complete (prev : Option Char) (d1 d2 ws rest : List Char)
    (hb : boundaryBefore prev = true)
    (h1 : d1 ≠ []) (hd1 : ∀ c ∈ d1, c.isDigit = true)
    (h2 : d2 ≠ []) (hd2 : ∀ c ∈ d2, c.isDigit = true)
    (hws : ∀ c ∈ ws, wsChar c = true)
    (hrest : ∀ c, rest.head? = some c → isWordChar c = false) :
    matchAt prev (tokenChunk d1 d2 ws rest) = some (d1 ++ '.' :: d2) := by
  have hhead1 : ∀ c, ('.' :: (d2 ++ (ws ++ ('m' :: 's' :: rest)))).head? = some c →
      Char.isDigit c = false := by
    intro c hc
    cases Option.some.inj hc
    decide
  have hhead2 : ∀ c, (ws ++ ('m' :: 's' :: rest)).head? = some c →
      Char.isDigit c = false := by
    intro c hc
    cases ws with
    | nil =>
      cases Option.some.inj hc
      decide
    | cons w ws' =>
      cases Option.some.inj hc
      exact wsChar_not_digit _ (hws c (List.mem_cons_self c ws'))
  have hhead3 : ∀ c, ('m' :: 's' :: rest).head? = some c → wsChar c = false := by
    intro c hc
    cases Option.some.inj hc
    decide
  have tw1 := tw_split Char.isDigit d1 ('.' :: (d2 ++ (ws ++ ('m' :: 's' :: rest)))) hd1 hhead1
  have tw2 := tw_split Char.isDigit d2 (ws ++ ('m' :: 's' :: rest)) hd2 hhead2
  have tw3 := tw_split wsChar ws ('m' :: 's' :: rest) hws hhead3
  have hm : dropLit mChars ('m' :: 's' :: rest) = some rest := dropLit_complete mChars rest
  unfold matchAt tokenChunk
  rw [if_pos hb, dropLit_complete]
  simp only [Option.some_bind]
  rw [tw1.1, if_neg h1, tw1.2]
  dsimp only
  rw [if_pos rfl, tw2.1, if_neg h2, tw2.2, tw3.2, hm]
  simp only [Option.some_bind]
  cases rest with
  | nil => simp
  | cons c r =>
    have hcw : isWordChar c = false := hrest c rfl
    simp [hcw]

theorem lastOpt_cons (prev : Option Char) (c : Char) (pre : List Char) :
    lastOpt prev (c :: pre) = lastOpt (some c) pre := by
  cases pre with
  | nil => rfl
  | cons c2 r =>
    unfold lastOpt
    rw [List.getLast?_cons_cons]
    cases hg : (c2 :: r).getLast? with
    | none => simp at hg
    | some c3 => rfl

theorem scanLine_sound (cs : List Char) : ∀ (prev : Option Char) (v : List Char),
    scanLine prev cs = some v →
    ∃ pre suf, cs = pre ++ suf ∧ matchAt (lastOpt prev pre) suf = some v := by
  induction cs with
  | nil =>
    intro prev v h
    exact ⟨[], [], rfl, h⟩
  | cons c rest ih =>
    intro prev v h
    rw [scanLine] at h
    cases hm : matchAt prev (c :: rest) with
    | some w =>
      rw [hm] at h
      have h' : some w = some v := h
      refine ⟨[], c :: rest, rfl, ?_⟩
      show matchAt prev (c :: rest) = some v
      rw [hm, Option.some.inj h']
    | none =>
      rw [hm] at h
      obtain ⟨pre, suf, hsplit, hmt⟩ := ih (some c) v h
      refine ⟨c :: pre, suf, by rw [hsplit, List.cons_append], ?_⟩
      rw [lastOpt_cons]
      exact hmt

theorem scanLine_complete : ∀ (pre : List Char) (prev : Option Char) (suf v : List Char),
    matchAt (lastOpt prev pre) suf = some v →
    (scanLine prev (pre ++ suf)).isSome = true := by
  intro pre
  induction pre with
  | nil =>
    intro prev suf v h
    have h' : matchAt prev suf = some v := h
    cases suf with
    | nil =>
      show (matchAt prev []).isSome = true
      rw [h']
      rfl
    | cons c r =>
      show (scanLine prev (c :: r)).isSome = true
      rw [scanLine, h']
      rfl
  | cons c pre' ih =>
    intro prev suf v h
    rw [lastOpt_cons] at h
    show (scanLine prev (c :: (pre' ++ suf))).isSome = true
    rw [scanLine]
    cases hm : matchAt prev (c :: (pre' ++ suf)) with
    | some w => rfl
    | none => exact ih (some c) suf v h

theorem parseLine_sound (s : String) (v : String) (h : parseLine s = some v) :
    ∃ pre d1 d2 ws rest, TokenSplit s.toList pre d1 d2 ws rest ∧
      v = String.mk (d1 ++ '.' :: d2) := by
  unfold parseLine at h
  cases hs : scanLine none s.toList with
  | none => rw [hs] at h; exact absurd h (by simp)
  | some w =>
    rw [hs] at h
    have hv : v = String.mk w := (Option.some.inj h).symm
    obtain ⟨pre, suf, hsplit, hmt⟩ := scanLine_sound s.toList none w hs
    obtain ⟨hb, d1, d2, ws, rest, hchunk, h1, hd1, h2, hd2, hws, hrest, hw⟩ :=
      matchAt_sound (lastOpt none pre) suf w hmt
    refine ⟨pre, d1, d2, ws, rest, ⟨?_, h1, hd1, h2, hd2, hws, ?_, hrest⟩, ?_⟩
    · rw [hsplit, hchunk]
    · intro c hc
      unfold lastOpt at hb
      rw [hc] at hb
      simpa [boundaryBefore] using hb
    · rw [hv, hw]

theorem parseLine_complete (s : String) (pre d1 d2 ws rest : List Char)
    (h : TokenSplit s.toList pre d1 d2 ws rest) :
    (parseLine s).isSome = true := by
  obtain ⟨hs, h1, hd1, h2, hd2, hws, hpre, hrest⟩ := h
  have hb : boundaryBefore (lastOpt none pre) = true := by
    unfold lastOpt
    cases hg : pre.getLast? with
    | none => rfl
    | some c => simp [boundaryBefore, hpre c hg]
  have hmt := matchAt_complete (lastOpt none pre) d1 d2 ws rest hb h1 hd1 h2 hd2 hws hrest
  have hsc := scanLine_complete pre none (tokenChunk d1 d2 ws rest) (d1 ++ '.' :: d2) hmt
  rw [← hs] at hsc
  unfold parseLine
  cases hw : scanLine none s.toList with
  | none => rw [hw] at hsc; exact absurd hsc (by simp)
  | some w => rfl

/-! ## Generator machine lemmas -/

theorem finCount_append (l1 l2 : List Obs) :
    finCount (l1 ++ l2) = finCount l1 + finCount l2 := by
  induction l1 with
  | nil => simp [finCount]
  | cons o rest ih =>
    cases o with
    | deliver v => simp [finCount, ih]
    | finalize =>
      simp [finCount, ih]
      omega
    | stopResolvedObs => simp [finCount, ih]

theorem drain_reading (q : List Req) (st sq sr : Bool) :
    drain Phase.reading q st sq sr = (⟨Phase.reading, q, st, sq, sr⟩, []) := by
  cases q with
  | nil => rfl
  | cons r rest => cases r <;> rfl

theorem GenWF_of_done (m : GenM) (h : m.phase = Phase.done) : GenWF m := by
  constructor
  · intro hc
    rw [h] at hc
    exact Phase.noConfusion hc
  · intro hc
    rcases hc with hc | hc <;> rw [h] at hc <;> exact Phase.noConfusion hc

theorem drain_done_spec (q : List Req) (st sq sr : Bool) :
    (drain Phase.done q st sq sr).fst.phase = Phase.done ∧
    (drain Phase.done q st sq sr).fst.started = st ∧
    finCount (drain Phase.done q st sq sr).snd = 0 ∧
    ∀ v, Obs.deliver v ∉ (drain Phase.done q st sq sr).snd := by
  induction q generalizing sr with
  | nil => simp [drain, finCount]
  | cons r rest ih =>
    cases r with
    | next => simpa [drain] using ih sr
    | ret =>
      obtain ⟨hp, hs, hf, hd⟩ := ih true
      simp only [drain]
      refine ⟨hp, hs, ?_, ?_⟩
      · simpa [finCount] using hf
      · intro v hv
        rcases List.mem_cons.mp hv with hv | hv
        · exact Obs.noConfusion hv
        · exact hd v hv

theorem drain_inv (ph : Phase) (q : List Req) (st sq sr : Bool)
    (h : sr = true → ph = Phase.done) :
    (drain ph q st sq sr).fst.stopResolved = true →
    (drain ph q st sq sr).fst.phase = Phase.done := by
  cases ph with
  | reading =>
    simp only [drain]
    intro hres
    exact h hres
  | created =>
    cases q with
    | nil =>
      simp only [drain]
      intro hres
      exact h hres
    | cons r rest =>
      cases r with
      | next =>
        simp only [drain]
        intro hres
        exact absurd (h hres) (by simp)
      | ret =>
        simp only [drain]
        intro _
        exact (drain_done_spec rest st sq true).1
  | idle =>
    cases q with
    | nil =>
      simp only [drain]
      intro hres
      exact h hres
    | cons r rest =>
      cases r with
      | next =>
        simp only [drain]
        intro hres
        exact absurd (h hres) (by simp)
      | ret =>
        simp only [drain]
        intro _
        exact (drain_done_spec rest st sq true).1
  | done =>
    intro _
    exact (drain_done_spec q st sq sr).1

theorem pingStep_done (m : GenM) (hm : m.phase = Phase.done) (e : Ev) :
    (pingStep m e).fst.phase = Phase.done ∧
    finCount (pingStep m e).snd = 0 ∧
    ∀ v, Obs.deliver v ∉ (pingStep m e).snd := by
  cases e with
  | reqNext =>
    simp only [pingStep, hm]
    obtain ⟨h1, _, h3, h4⟩ :=
      drain_done_spec (m.queue ++ [Req.next]) m.started m.stopRequested m.stopResolved
    exact ⟨h1, h3, h4⟩
  | reqRet =>
    simp only [pingStep, hm]
    obtain ⟨h1, _, h3, h4⟩ :=
      drain_done_spec (m.queue ++ [Req.ret]) m.started true m.stopResolved
    exact ⟨h1, h3, h4⟩
  | line s =>
    simp only [pingStep, hm]
    simp [finCount, hm]
  | eof =>
    simp only [pingStep, hm]
    simp [finCount, hm]
  | readErr =>
    simp only [pingStep, hm]
    simp [finCount, hm]

theorem pingRunFrom_done (evs : List Ev) : ∀ m : GenM, m.phase = Phase.done →
    (pingRunFrom m evs).fst.phase = Phase.done ∧
    finCount (pingRunFrom m evs).snd = 0 ∧
    ∀ v, Obs.deliver v ∉ (pingRunFrom m evs).snd := by
  induction evs with
  | nil =>
    intro m hm
    exact ⟨hm, rfl, fun v hv => by simp [pingRunFrom] at hv⟩
  | cons e es ih =>
    intro m hm
    obtain ⟨h1, h2, h3⟩ := pingStep_done m hm e
    obtain ⟨g1, g2, g3⟩ := ih (pingStep m e).fst h1
    simp only [pingRunFrom]
    refine ⟨g1, ?_, ?_⟩
    · rw [finCount_append, h2, g2]
    · intro v hv
      rcases List.mem_append.mp hv with hv | hv
      · exact h3 v hv
      · exact g3 v hv

theorem pingStep_stopInv (m : GenM) (e : Ev) (h : stopInv m) :
    stopInv (pingStep m e).fst := by
  cases e with
  | reqNext =>
    exact drain_inv m.phase (m.queue ++ [Req.next]) m.started m.stopRequested m.stopResolved h
  | reqRet =>
    exact drain_inv m.phase (m.queue ++ [Req.ret]) m.started true m.stopResolved h
  | line s =>
    cases hp : m.phase with
    | reading =>
      have hsr : ¬m.stopResolved = true := by
        intro hh
        have hd := h hh
        rw [hp] at hd
        exact Phase.noConfusion hd
      simp only [pingStep, hp]
      exact drain_inv Phase.idle m.queue m.started m.stopRequested m.stopResolved
        (fun hh => absurd hh hsr)
    | created =>
      simp only [pingStep, hp]
      exact h
    | idle =>
      simp only [pingStep, hp]
      exact h
    | done =>
      simp only [pingStep, hp]
      exact h
  | eof =>
    cases hp : m.phase with
    | reading =>
      simp only [pingStep, hp]
      intro _
      exact (drain_done_spec m.queue m.started m.stopRequested m.stopResolved).1
    | created =>
      simp only [pingStep, hp]
      exact h
    | idle =>
      simp only [pingStep, hp]
      exact h
    | done =>
      simp only [pingStep, hp]
      exact h
  | readErr =>
    cases hp : m.phase with
    | reading =>
      simp only [pingStep, hp]
      intro _
      exact (drain_done_spec m.queue m.started m.stopRequested m.stopResolved).1
    | created =>
      simp only [pingStep, hp]
      exact h
    | idle =>
      simp only [pingStep, hp]
      exact h
    | done =>
      simp only [pingStep, hp]
      exact h

theorem pingRunFrom_stopInv (evs : List Ev) : ∀ m : GenM, stopInv m →
    stopInv (pingRunFrom m evs).fst := by
  induction evs with
  | nil =>
    intro m h
    exact h
  | cons e es ih =>
    intro m h
    simp only [pingRunFrom]
    exact ih (pingStep m e).fst (pingStep_stopInv m e h)

theorem drain_fin (ph : Phase) (q : List Req) (st sq sr : Bool)
    (h1 : ph = Phase.created → st = false)
    (h2 : ph = Phase.idle ∨ ph = Phase.reading → st = true) :
    finCount (drain ph q st sq sr).snd +
        (if ph = Phase.done ∧ st = true then 1 else 0)
      = closedCount (drain ph q st sq sr).fst ∧
    GenWF (drain ph q st sq sr).fst := by
  cases ph with
  | reading =>
    simp only [drain]
    constructor
    · simp [finCount, closedCount]
    · exact ⟨fun hc => Phase.noConfusion hc, fun _ => h2 (Or.inr rfl)⟩
  | created =>
    have hst : st = false := h1 rfl
    subst hst
    cases q with
    | nil =>
      simp only [drain]
      constructor
      · simp [finCount, closedCount]
      · refine ⟨fun _ => rfl, fun hc => ?_⟩
        rcases hc with hc | hc <;> exact Phase.noConfusion hc
    | cons r rest =>
      cases r with
      | next =>
        simp only [drain]
        constructor
        · simp [finCount, closedCount]
        · exact ⟨fun hc => Phase.noConfusion hc, fun _ => rfl⟩
      | ret =>
        obtain ⟨hp, hs, hf, _⟩ := drain_done_spec rest false sq true
        simp only [drain]
        constructor
        · simp [finCount, closedCount, hf, hp, hs]
        · exact GenWF_of_done _ hp
  | idle =>
    have hst : st = true := h2 (Or.inl rfl)
    subst hst
    cases q with
    | nil =>
      simp only [drain]
      constructor
      · simp [finCount, closedCount]
      · exact ⟨fun hc => Phase.noConfusion hc, fun _ => rfl⟩
    | cons r rest =>
      cases r with
      | next =>
        simp only [drain]
        constructor
        · simp [finCount, closedCount]
        · exact ⟨fun hc => Phase.noConfusion hc, fun _ => rfl⟩
      | ret =>
        obtain ⟨hp, hs, hf, _⟩ := drain_done_spec rest true sq true
        simp only [drain]
        constructor
        · simp [finCount, closedCount, hf, hp, hs]
        · exact GenWF_of_done _ hp
  | done =>
    obtain ⟨hp, hs, hf, _⟩ := drain_done_spec q st sq sr
    constructor
    · simp [closedCount, hf, hp, hs]
    · exact GenWF_of_done _ hp

theorem pingStep_fin (m : GenM) (e : Ev) (hwf : GenWF m) :
    finCount (pingStep m e).snd + closedCount m = closedCount (pingStep m e).fst ∧
    GenWF (pingStep m e).fst := by
  obtain ⟨hw1, hw2⟩ := hwf
  cases e with
  | reqNext =>
    exact drain_fin m.phase (m.queue ++ [Req.next]) m.started m.stopRequested
      m.stopResolved hw1 hw2
  | reqRet =>
    exact drain_fin m.phase (m.queue ++ [Req.ret]) m.started true
      m.stopResolved hw1 hw2
  | line s =>
    cases hp : m.phase with
    | reading =>
      have hst : m.started = true := hw2 (Or.inr hp)
      have hd := drain_fin Phase.idle m.queue m.started m.stopRequested m.stopResolved
        (fun hc => Phase.noConfusion hc) (fun _ => hst)
      simp only [pingStep, hp]
      refine ⟨?_, hd.2⟩
      have h0 := hd.1
      simp only [show ¬(Phase.idle = Phase.done ∧ m.started = true) from
        fun hc => Phase.noConfusion hc.1, if_neg, Nat.add_zero] at h0
      simpa [finCount, closedCount, hp] using h0
    | created =>
      simp only [pingStep, hp]
      exact ⟨by simp [finCount], hw1, hw2⟩
    | idle =>
      simp only [pingStep, hp]
      exact ⟨by simp [finCount], hw1, hw2⟩
    | done =>
      simp only [pingStep, hp]
      exact ⟨by simp [finCount], hw1, hw2⟩
  | eof =>
    cases hp : m.phase with
    | reading =>
      have hst : m.started = true := hw2 (Or.inr hp)
      simp only [pingStep, hp, hst]
      obtain ⟨hdp, hds, hdf, _⟩ :=
        drain_done_spec m.queue true m.stopRequested m.stopResolved
      refine ⟨?_, GenWF_of_done _ hdp⟩
      simp [finCount, closedCount, hdf, hdp, hds, hp]
    | created =>
      simp only [pingStep, hp]
      exact ⟨by simp [finCount], hw1, hw2⟩
    | idle =>
      simp only [pingStep, hp]
      exact ⟨by simp [finCount], hw1, hw2⟩
    | done =>
      simp only [pingStep, hp]
      exact ⟨by simp [finCount], hw1, hw2⟩
  | readErr =>
    cases hp : m.phase with
    | reading =>
      have hst : m.started = true := hw2 (Or.inr hp)
      simp only [pingStep, hp, hst]
      obtain ⟨hdp, hds, hdf, _⟩ :=
        drain_done_spec m.queue true m.stopRequested m.stopResolved
      refine ⟨?_, GenWF_of_done _ hdp⟩
      simp [finCount, closedCount, hdf, hdp, hds, hp]
    | created =>
      simp only [pingStep, hp]
      exact ⟨by simp [finCount], hw1, hw2⟩
    | idle =>
      simp only [pingStep, hp]
      exact ⟨by simp [finCount], hw1, hw2⟩
    | done =>
      simp only [pingStep, hp]
      exact ⟨by simp [finCount], hw1, hw2⟩

theorem pingRunFrom_fin (evs : List Ev) : ∀ m : GenM, GenWF m →
    finCount (pingRunFrom m evs).snd + closedCount m
      = closedCount (pingRunFrom m evs).fst ∧
    GenWF (pingRunFrom m evs).fst := by
  induction evs with
  | nil =>
    intro m h
    exact ⟨by simp [pingRunFrom, finCount], h⟩
  | cons e es ih =>
    intro m h
    obtain ⟨s1, s2⟩ := pingStep_fin m e h
    obtain ⟨r1, r2⟩ := ih (pingStep m e).fst s2
    simp only [pingRunFrom]
    refine ⟨?_, r2⟩
    rw [finCount_append]
    omega

theorem pingInit_WF : GenWF pingInit := by
  refine ⟨fun _ => rfl, fun hc => ?_⟩
  rcases hc with hc | hc <;> exact Phase.noConfusion hc

theorem pingRun_fin (evs : List Ev) :
    finCount (pingRun evs).snd = closedCount (pingRun evs).fst := by
  have h := (pingRunFrom_fin evs pingInit pingInit_WF).1
  simpa [pingRun, closedCount, pingInit] using h

/-! ## Claim theorems -/

/-- C8: if at finalize time the process has no identifiable handle (it
already exited on its own), the finalization sends no signal at all and
simply awaits the exit status with an unbounded wait; the outcome is the
normal terminated status, not a fault. -/
theorem already_exited_skips_signals (p : ProcBehavior)
    (h : p.alreadyExited = true) :
    pingFinalize p =
      ([FinAction.cancelRead, FinAction.closeStream, FinAction.waitUnbounded],
       true) ∧
    (∀ sig, FinAction.sendSignal sig ∉ (pingFinalize p).fst) ∧
    FinAction.forceExit ∉ (pingFinalize p).fst := by
  obtain ⟨a, t, k⟩ := p
  cases a with
  | false => exact Bool.noConfusion h
  | true =>
    refine ⟨rfl, ?_, ?_⟩
    · intro sig hmem
      simp [pingFinalize] at hmem
    · intro hmem
      simp [pingFinalize] at hmem

/-- Witness for C8 at a process that already exited. -/
theorem already_exited_skips_signals_witness :
    (⟨true, false, false⟩ : ProcBehavior).alreadyExited = true ∧
    (pingFinalize ⟨true, false, false⟩ =
      ([FinAction.cancelRead, FinAction.closeStream, FinAction.waitUnbounded],
       true) ∧
     (∀ sig, FinAction.sendSignal sig ∉ (pingFinalize ⟨true, false, false⟩).fst) ∧
     FinAction.forceExit ∉ (pingFinalize ⟨true, false, false⟩).fst) :=
  ⟨rfl, already_exited_skips_signals ⟨true, false, false⟩ rfl⟩

/-- C6: the finalization sequence runs exactly once per session, on every
exit path. Over all event traces of the generator machine, the number of
finalization runs is one exactly when the generator body has started and
completed (the session is closed), and zero otherwise; in particular it
never exceeds one. Moreover the finalization sequence itself always begins
by cancelling the pending read and closing the output stream before the
shutdown protocol or the plain exit wait. -/
theorem finalize_exactly_once :
    (∀ evs : List Ev,
      finCount (pingRun evs).snd =
        if (pingRun evs).fst.phase = Phase.done ∧ (pingRun evs).fst.started = true
        then 1 else 0) ∧
    (∀ p : ProcBehavior, ∃ tail,
      (pingFinalize p).fst =
        FinAction.cancelRead :: FinAction.closeStream :: tail) := by
  constructor
  · intro evs
    have h := pingRun_fin evs
    simpa [closedCount] using h
  · intro p
    obtain ⟨a, t, k⟩ := p
    cases a <;> cases t <;> cases k <;> exact ⟨_, rfl⟩

/-- C5 counterexample: shutdown of the session begins with the return
request of the second event, no sample has been delivered yet, and the
line that then resolves the in-flight read is still forwarded to the
rendering collaborator after shutdown began. -/
theorem sample_after_stop_begun_cx :
    (pingRun [Ev.reqNext, Ev.reqRet]).snd = [] ∧
    (pingRun [Ev.reqNext, Ev.reqRet]).fst.stopRequested = true ∧
    Obs.deliver (some msVal) ∈
      (pingRun [Ev.reqNext, Ev.reqRet, Ev.line pingSampleLine]).snd := by
  decide

/-- C5 amended: one sample yielded by the read that was already in flight
can still be delivered after shutdown begins, but once the stop request
has resolved (the return promise settled after finalization), no further
sample is ever delivered to the rendering collaborator, over every
continuation of events. -/
theorem no_sample_after_stop_resolves (evs tail : List Ev)
    (h : (pingRun evs).fst.stopResolved = true) :
    ∀ v, Obs.deliver v ∉ (pingRunFrom (pingRun evs).fst tail).snd := by
  have hinv : stopInv (pingRun evs).fst :=
    pingRunFrom_stopInv evs pingInit fun hh => Bool.noConfusion hh
  exact (pingRunFrom_done tail (pingRun evs).fst (hinv h)).2.2

/-- Witness for C5 amended: a run in which stop has resolved, followed by
further line and next events that deliver nothing. -/
theorem no_sample_after_stop_resolves_witness :
    (pingRun [Ev.reqNext, Ev.reqRet, Ev.line plainLine]).fst.stopResolved = true ∧
    Obs.deliver none ∉
      (pingRunFrom (pingRun [Ev.reqNext, Ev.reqRet, Ev.line plainLine]).fst
        [Ev.line plainLine, Ev.reqNext]).snd :=
  ⟨by decide,
   no_sample_after_stop_resolves [Ev.reqNext, Ev.reqRet, Ev.line plainLine]
     [Ev.line plainLine, Ev.reqNext] (by decide) none⟩

/-- C7 counterexample: with a read in flight, a cancellation request is
queued, produces no observation, and does not resolve the pending read:
the machine stays in the reading phase with the return request waiting,
and only the arrival of the next output line resolves the read, with that
line's sample, after which the queued return runs finalization. -/
theorem cancel_does_not_unblock_read_cx :
    (pingRun [Ev.reqNext, Ev.reqRet]).fst.phase = Phase.reading ∧
    (pingRun [Ev.reqNext, Ev.reqRet]).fst.queue = [Req.ret] ∧
    (pingRun [Ev.reqNext, Ev.reqRet]).snd = [] ∧
    (pingRun [Ev.reqNext, Ev.reqRet, Ev.line pingSampleLine]).snd =
      [Obs.deliver (some msVal), Obs.finalize, Obs.stopResolvedObs] := by
  decide

/-- C7 amended: a cancellation request issued while a line read is pending
is queued behind that read and does not unblock it; the pending read is
resolved only by the next output line (or end of stream or read error),
and only then is the queued return served, running finalization, which is
where the read cancellable is cancelled. -/
theorem cancel_queued_behind_pending_read :
    (∀ (q : List Req) (st sq sr : Bool),
      pingStep ⟨Phase.reading, q, st, sq, sr⟩ Ev.reqRet =
        (⟨Phase.reading, q ++ [Req.ret], st, true, sr⟩, [])) ∧
    (∀ s : String,
      pingStep ⟨Phase.reading, [Req.ret], true, true, false⟩ (Ev.line s) =
        (⟨Phase.done, [], true, true, true⟩,
         [Obs.deliver (parseLine s), Obs.finalize, Obs.stopResolvedObs])) := by
  constructor
  · intro q st sq sr
    show drain Phase.reading (q ++ [Req.ret]) st true sr = _
    rw [drain_reading]
  · intro s
    rfl

/-- C2: with one active session, two stop calls whose synchronous parts
run one after the other (the only interleaving the single-threaded event
loop allows) perform exactly one termination sequence: the first call
invokes return on the session once, the second call leaves the state
unchanged and receives the very same PendingStop promise to await, so
both calls observe the same outcome. -/
theorem concurrent_stop_single_signal (s : Ctl) (k : Nat) (h : s.ping = some k) :
    (stopSync (stopSync s).fst).snd = (stopSync s).snd ∧
    (stopSync (stopSync s).fst).fst = (stopSync s).fst ∧
    (stopSync s).fst.retCalls = s.retCalls ++ [k] := by
  simp [stopSync, h]

/-- Witness for C2 on a freshly started controller. -/
theorem concurrent_stop_single_signal_witness :
    (stopSync (stopSync (start (initApplet none emptyTitle))).fst).snd =
      (stopSync (start (initApplet none emptyTitle))).snd ∧
    (stopSync (stopSync (start (initApplet none emptyTitle))).fst).fst =
      (stopSync (start (initApplet none emptyTitle))).fst ∧
    (stopSync (start (initApplet none emptyTitle))).fst.retCalls =
      (start (initApplet none emptyTitle)).retCalls ++ [0] :=
  concurrent_stop_single_signal (start (initApplet none emptyTitle)) 0 rfl

/-- C3: in every reachable controller state the active-session slot holds
at most one session, and calling start while a session is active is a
no-op: the whole state, hence the session identity and the list of
spawned processes, is unchanged. -/
theorem at_most_one_active_session (s : Ctl) (_hr : Reach s) :
    (∀ a b : Nat, s.ping = some a → s.ping = some b → a = b) ∧
    (∀ k : Nat, s.ping = some k → start s = s) := by
  constructor
  · intro a b ha hb
    rw [ha] at hb
    exact Option.some.inj hb
  · intro k hk
    simp [start, hk]

/-- Witness for C3: starting twice from the initial state changes nothing
the second time. -/
theorem at_most_one_active_session_witness :
    start (start (initApplet none emptyTitle)) = start (initApplet none emptyTitle) :=
  (at_most_one_active_session (start (initApplet none emptyTitle))
      (Reach.rStart (Reach.rInit none emptyTitle))).2 0 rfl

/-- C4 counterexample: a realistic ping line with an integer time yields
no value (the source regex demands a decimal fraction), and a line
containing the very substring of the claim glued to a word character also
yields no value (word boundary); the parser does recognize the decimal
sample line, including one whose whitespace before ms is a Unicode
no-break space, and a line without the token is unresolved. -/
theorem integer_time_not_matched_cx :
    parseLine intTimeLine = none ∧
    parseLine gluedTimeLine = none ∧
    parseLine pingSampleLine = some msVal ∧
    parseLine nbspTimeLine = some msVal ∧
    parseLine timeoutLine = none := by
  decide

/-- C4 amended: the parser returns a value exactly when the line contains
a token of the form time=digits.digits, optionally followed by whitespace,
then ms, with a word boundary on each side; the fractional part is
mandatory, so integer times are unresolved; any returned value is the
digits.digits text of such a token; and the parser is total. -/
theorem time_token_characterization (s : String) :
    ((parseLine s).isSome = true ↔
      ∃ pre d1 d2 ws rest, TokenSplit s.toList pre d1 d2 ws rest) ∧
    (∀ v, parseLine s = some v →
      ∃ pre d1 d2 ws rest, TokenSplit s.toList pre d1 d2 ws rest ∧
        v = String.mk (d1 ++ '.' :: d2)) := by
  constructor
  · constructor
    · intro hsome
      obtain ⟨v, hv⟩ := Option.isSome_iff_exists.mp hsome
      obtain ⟨pre, d1, d2, ws, rest, hts, _⟩ := parseLine_sound s v hv
      exact ⟨pre, d1, d2, ws, rest, hts⟩
    · rintro ⟨pre, d1, d2, ws, rest, hts⟩
      exact parseLine_complete s pre d1 d2 ws rest hts
  · intro v hv
    exact parseLine_sound s v hv

/-- Witness for C4 amended at the decimal sample line. -/
theorem time_token_characterization_witness :
    parseLine pingSampleLine = some msVal ∧
    (∃ pre d1 d2 ws rest, TokenSplit pingSampleLine.toList pre d1 d2 ws rest ∧
      msVal = String.mk (d1 ++ '.' :: d2)) :=
  ⟨by decide, (time_token_characterization pingSampleLine).2 msVal (by decide)⟩

/-- C9 counterexample: with the title T and an unresolved sample the
renderer produces T N/A, with a space after the title, not the literal
concatenation TN/A. -/
theorem render_unresolved_has_space_cx :
    set_ping_val titleT none = "T N/A" ∧ set_ping_val titleT none ≠ "TN/A" := by
  decide

/-- C9 amended: a resolved sample renders as the value and a ms suffix
and an unresolved one as N/A, in both cases preceded by the title and one
space when the title is non-empty, and by nothing when it is empty. -/
theorem render_formats :
    (∀ v : String, set_ping_val "" (some v) = v ++ " ms") ∧
    set_ping_val "" none = "N/A" ∧
    (∀ t v : String, t ≠ "" → set_ping_val t (some v) = (t ++ " ") ++ (v ++ " ms")) ∧
    (∀ t : String, t ≠ "" → set_ping_val t none = (t ++ " ") ++ "N/A") := by
  refine ⟨fun v => ?_, rfl, fun t v ht => ?_, fun t ht => ?_⟩
  · simp [set_ping_val]
  · simp [set_ping_val, ht]
  · simp [set_ping_val, ht]

/-- Witness for C9 amended at the title T. -/
theorem render_formats_witness :
    set_ping_val titleT none = (titleT ++ " ") ++ "N/A" :=
  render_formats.2.2.2 titleT (by decide)

/-- C10: immediately after construction the label is the unresolved
rendering through set_ping_val (N/A when no title is configured), the
tooltip is the host or the empty string, and a stop in this never-started
state performs no termination sequence and awaits the PendingStop promise
with id zero, which is initialized already resolved. -/
theorem initial_state_render_and_stop (host : Option String) (title : String) :
    (initApplet host title).label = set_ping_val title none ∧
    (title = "" → (initApplet host title).label = "N/A") ∧
    (initApplet host title).tooltip = hostOrEmpty host ∧
    stopSync (initApplet host title) = (initApplet host title, 0) ∧
    (0 : Nat) ∈ (initApplet host title).resolved ∧
    (initApplet host title).retCalls = [] := by
  refine ⟨rfl, ?_, rfl, rfl, by simp [initApplet], rfl⟩
  intro ht
  subst ht
  rfl

/-- Witness for C10 with no host and the empty title. -/
theorem initial_state_render_and_stop_witness :
    (initApplet none emptyTitle).label = "N/A" :=
  (initial_state_render_and_stop none emptyTitle).2.1 rfl
